import Mathlib

/-
Verification of the SMA crossover backtester (src/main.cpp).

The core of the program consists of:
  * `calcSMA`            — simple moving average with NaN warm-up entries;
  * `simulateWithCapitalRange` — the buy/sell crossover state machine;
  * the 256×256 grid search of `bruteForceAndAppend`;
  * the four-key sort comparator used to rank grid results.

Embedding conventions:
  * C++ `double` values are modelled as exact rationals `ℚ`;
  * the NaN "undefined" marker of an SMA entry is modelled as `none : Option ℚ`;
  * an out-of-bounds vector access (undefined behaviour in C++) makes the
    simulator return `none`; we prove the branch unreachable for aligned series;
  * the C-style cast `(int)(x)` of a nonnegative quotient is truncation toward
    zero, modelled by `ratTruncToInt`.
-/

/-- Initial capital (`const double INITIAL = 10000.0`). -/
def INITIAL : ℚ := 10000

/-- The running window sum of `calcSMA`, written exactly by the code's
incremental rule: `smaSumAux p m k` is the value the variable `sum` holds when
`sma[m-1+k]` is assigned.  At `k = 0` it is the sum of the first `m` prices
(the first loop of `calcSMA`); each later step adds `p[i] - p[i-m]` for
`i = m + k` (the second loop). -/
def smaSumAux (p : List ℚ) (m : ℕ) : ℕ → ℚ
  | 0 => (p.take m).sum
  | k + 1 => smaSumAux p m k + p.getD (m + k) 0 - p.getD k 0

/-- `calcSMA` from main.cpp: a vector of length `p.size()` initialised to NaN
(`none`); returned unchanged when `n < 1 || n > N`, otherwise entry `n-1` gets
the initial window sum divided by `n` and every later entry the incrementally
updated sum divided by `n`. -/
def calcSMA (p : List ℚ) (n : ℤ) : List (Option ℚ) :=
  if n < 1 ∨ (p.length : ℤ) < n then List.replicate p.length none
  else
    (List.range p.length).map fun i =>
      if i + 1 < n.toNat then none
      else some (smaSumAux p n.toNat (i + 1 - n.toNat) / (n.toNat : ℚ))

example : calcSMA [2, 4, 6, 8] 2 = [none, some 3, some 5, some 7] := by
  norm_num [calcSMA, smaSumAux, List.range_succ, show Int.toNat 2 = 2 from rfl]
example : calcSMA [2, 4] 3 = [none, none] := by
  norm_num [calcSMA]; rfl

/-- Prefix sums grow by the element at the new index. -/
theorem sum_take_succ (p : List ℚ) (j : ℕ) (h : j < p.length) :
    (p.take (j + 1)).sum = (p.take j).sum + p.getD j 0 := by
  rw [← List.take_concat_get p j h, List.concat_eq_append, List.sum_append]
  simp [List.getD_eq_getElem?_getD, List.getElem?_eq_getElem h]

/-- A window sum as a difference of prefix sums. -/
theorem sum_drop_take (p : List ℚ) (j i : ℕ) :
    ((p.drop j).take i).sum = (p.take (j + i)).sum - (p.take j).sum := by
  rw [List.take_add, List.sum_append]; ring

/-- The incrementally maintained sum of `calcSMA` is the true window sum:
after `k` updates it is the sum of the `m` prices ending at index `m - 1 + k`. -/
theorem smaSumAux_eq (p : List ℚ) (m k : ℕ) (h : k + m ≤ p.length) :
    smaSumAux p m k = ((p.drop k).take m).sum := by
  induction k with
  | zero => simp [smaSumAux]
  | succ k ih =>
    rw [smaSumAux, ih (by omega), sum_drop_take, sum_drop_take,
      show k + 1 + m = (k + m) + 1 by ring, sum_take_succ p (k + m) (by omega),
      show k + 1 = k + 1 from rfl, sum_take_succ p k (by omega),
      show m + k = k + m from Nat.add_comm m k]
    ring

/-- `calcSMA` always returns a series of the input's length. -/
theorem calcSMA_length (p : List ℚ) (n : ℤ) : (calcSMA p n).length = p.length := by
  unfold calcSMA; split <;> simp

/-- Entry `i` of `calcSMA` for a valid window, as written by the code. -/
theorem calcSMA_get?_valid (p : List ℚ) (n : ℤ) (h1 : 1 ≤ n)
    (h2 : n ≤ (p.length : ℤ)) (i : ℕ) (hi : i < p.length) :
    (calcSMA p n).get? i = some (if i + 1 < n.toNat then none
      else some (smaSumAux p n.toNat (i + 1 - n.toNat) / (n.toNat : ℚ))) := by
  unfold calcSMA
  rw [if_neg (by omega), List.get?_map, List.get?_range hi]
  rfl

/-- C6: for every price series `p` and window `n` with `n < 1` or
`n > len(p)`, `calcSMA` returns a series of the same length as `p` filled
entirely with the undefined marker, and does not fail. -/
theorem calcSMA_invalid_window (p : List ℚ) (n : ℤ)
    (h : n < 1 ∨ (p.length : ℤ) < n) :
    calcSMA p n = List.replicate p.length none := by
  unfold calcSMA; rw [if_pos h]

/-- Witness for C6 at `p = [5, 6]`, `n = 3`. -/
theorem calcSMA_invalid_window_witness :
    calcSMA [5, 6] 3 = List.replicate 2 none :=
  calcSMA_invalid_window [5, 6] 3 (by norm_num)

/-- C1: for a valid window `1 ≤ n ≤ len(p)`, `calcSMA` returns a series of the
same length as `p`; positions `0 .. n-2` hold the undefined marker; position
`n-1` holds the arithmetic mean of the first `n` prices; and each position
`i ≥ n` holds the mean of `p[i-n+1 .. i]` produced by the incremental update
rule (`smaSumAux`, the running sum plus `p[i]` minus `p[i-n]`, divided by
`n`). -/
theorem calcSMA_valid_window (p : List ℚ) (n : ℤ) (h1 : 1 ≤ n)
    (h2 : n ≤ (p.length : ℤ)) :
    (calcSMA p n).length = p.length ∧
    (∀ i : ℕ, i + 1 < n.toNat → (calcSMA p n).get? i = some none) ∧
    (calcSMA p n).get? (n.toNat - 1) =
      some (some ((p.take n.toNat).sum / (n.toNat : ℚ))) ∧
    (∀ i : ℕ, n.toNat ≤ i → i < p.length → (calcSMA p n).get? i =
      some (some (((p.drop (i + 1 - n.toNat)).take n.toNat).sum / (n.toNat : ℚ)))) := by
  refine ⟨calcSMA_length p n, ?_, ?_, ?_⟩
  · intro i hi
    rw [calcSMA_get?_valid p n h1 h2 i (by omega), if_pos hi]
  · rw [calcSMA_get?_valid p n h1 h2 (n.toNat - 1) (by omega),
      if_neg (by omega), show n.toNat - 1 + 1 - n.toNat = 0 by omega]
    simp [smaSumAux]
  · intro i h3 h4
    rw [calcSMA_get?_valid p n h1 h2 i h4, if_neg (by omega),
      smaSumAux_eq p n.toNat (i + 1 - n.toNat) (by omega)]

/-- Witness for C1 at `p = [1, 2, 3, 4]`, `n = 2`: the warm-up entry, the
first defined entry (mean of the first two prices) and a later windowed
entry. -/
theorem calcSMA_valid_window_witness :
    (calcSMA [1, 2, 3, 4] 2).get? 1 = some (some (3 / 2)) ∧
    (calcSMA [1, 2, 3, 4] 2).get? 3 = some (some (7 / 2)) := by
  have h := calcSMA_valid_window [1, 2, 3, 4] 2 (by norm_num) (by norm_num)
  constructor
  · have h2 := h.2.2.1
    norm_num [show Int.toNat 2 = 2 from rfl] at h2 ⊢
    exact h2
  · have h3 := h.2.2.2 3 (by norm_num) (by norm_num)
    norm_num [show Int.toNat 2 = 2 from rfl] at h3 ⊢
    exact h3

/-- Truncation toward zero of a rational, the C-style cast
`(int)(cash / prices[i])` used by the BUY rule. -/
def ratTruncToInt (q : ℚ) : ℤ := Int.sign q.num * (q.num.natAbs / q.den : ℕ)

example : ratTruncToInt (7/2) = 3 := by
  norm_num [ratTruncToInt, show Int.sign 7 = 1 from rfl]
example : ratTruncToInt (-7/2) = -3 := by
  norm_num [ratTruncToInt, show Int.sign (-7) = -1 from rfl]

example : ratTruncToInt 0 = 0 := by norm_num [ratTruncToInt]

/-- Running state of `simulateWithCapitalRange`:
`double cash; int shares; int trades;`. -/
structure SimState where
  cash : ℚ
  shares : ℤ
  trades : ℕ
deriving DecidableEq, Repr

/-- `struct SimResult { double finalCapital; int tradeCount; }`. -/
structure SimResult where
  finalCapital : ℚ
  tradeCount : ℕ
deriving DecidableEq, Repr

/-- The state at the top of the simulator:
`cash = INITIAL, shares = 0, trades = 0`. -/
def initState : SimState := ⟨INITIAL, 0, 0⟩

/-- One iteration of the simulator loop at index `i` (the loop body of
`simulateWithCapitalRange`).  The outer match performs the vector accesses
`smaS[i-1], smaL[i-1], smaS[i], smaL[i]`: an out-of-bounds access (undefined
behaviour in the C++ source) yields `none`.  A NaN in either difference
(`std::isnan(dPrev) || std::isnan(dNow)`) skips the index.  BUY on a golden
cross (suppressed when `i == startIdx`), otherwise SELL on a death cross. -/
def simStep (prices : List ℚ) (smaS smaL : List (Option ℚ)) (startIdx i : ℕ)
    (st : SimState) : Option SimState :=
  match smaS.get? (i - 1), smaL.get? (i - 1), smaS.get? i, smaL.get? i with
  | some osp, some olp, some osn, some oln =>
    match osp, olp, osn, oln with
    | some sp, some lp, some sn, some lnow =>
      let dPrev := sp - lp
      let dNow := sn - lnow
      if i ≠ startIdx ∧ st.shares = 0 ∧ dPrev < 0 ∧ 0 < dNow then
        match prices.get? i with
        | some pi =>
          let buyShares := ratTruncToInt (st.cash / pi)
          if 0 < buyShares then
            some ⟨st.cash - (buyShares : ℚ) * pi, st.shares + buyShares,
              st.trades + 1⟩
          else some st
        | none => none
      else if 0 < st.shares ∧ 0 < dPrev ∧ dNow < 0 then
        match prices.get? i with
        | some pi => some ⟨st.cash + (st.shares : ℚ) * pi, 0, st.trades + 1⟩
        | none => none
      else some st
    | _, _, _, _ => some st
  | _, _, _, _ => none

/-- The simulator loop `for (int i = startIdx; i <= endIdx; ++i)`, run over the
explicit list of indices; a `none` from any step (an out-of-bounds access)
aborts. -/
def simLoop (prices : List ℚ) (smaS smaL : List (Option ℚ)) (startIdx : ℕ) :
    List ℕ → SimState → Option SimState
  | [], st => some st
  | i :: rest, st =>
    match simStep prices smaS smaL startIdx i st with
    | some st' => simLoop prices smaS smaL startIdx rest st'
    | none => none

/-- The clamp `if (startIdx < 0) startIdx = 0;`. -/
def clampStart (startIdx : ℤ) : ℤ := if startIdx < 0 then 0 else startIdx

/-- The clamp `if (endIdx >= N) endIdx = N - 1;`. -/
def clampEnd (N endIdx : ℤ) : ℤ := if N ≤ endIdx then N - 1 else endIdx

/-- The effective start of the loop: after the zero clamp,
`if (startIdx < 1) startIdx = 1;`. -/
def startEff (startIdx : ℤ) : ℤ :=
  if clampStart startIdx < 1 then 1 else clampStart startIdx

/-- The list of loop indices `startEff startIdx, ..., clampEnd N endIdx`. -/
def loopIdxs (N : ℕ) (startIdx endIdx : ℤ) : List ℕ :=
  List.range' (startEff startIdx).toNat
    ((clampEnd (N : ℤ) endIdx).toNat - (startEff startIdx).toNat + 1)

/-- The forced liquidation after the loop:
`if (shares > 0) { cash += shares * prices[endIdx]; trades++; }`. -/
def liquidate (prices : List ℚ) (endIdx : ℕ) (st : SimState) : Option SimResult :=
  if 0 < st.shares then
    match prices.get? endIdx with
    | some pe => some ⟨st.cash + (st.shares : ℚ) * pe, st.trades + 1⟩
    | none => none
  else some ⟨st.cash, st.trades⟩

/-- `simulateWithCapitalRange` from main.cpp: degenerate returns for an empty
series or an empty clamped range, then the crossover loop from the effective
start index to the clamped end, then forced liquidation. -/
def simulateWithCapitalRange (prices : List ℚ) (smaS smaL : List (Option ℚ))
    (startIdx endIdx : ℤ) : Option SimResult :=
  if prices.length = 0 then some ⟨INITIAL, 0⟩
  else if clampEnd (prices.length : ℤ) endIdx ≤ clampStart startIdx then
    some ⟨INITIAL, 0⟩
  else
    match simLoop prices smaS smaL (startEff startIdx).toNat
        (loopIdxs prices.length startIdx endIdx) initState with
    | some st => liquidate prices (clampEnd (prices.length : ℤ) endIdx).toNat st
    | none => none

/-- The start clamp never produces a negative index. -/
theorem clampStart_nonneg (startIdx : ℤ) : 0 ≤ clampStart startIdx := by
  unfold clampStart; split <;> omega

/-- The end clamp never reaches the length of the series. -/
theorem clampEnd_le (N endIdx : ℤ) (h : 0 < N) : clampEnd N endIdx ≤ N - 1 := by
  unfold clampEnd; split <;> omega

/-- The effective start index is at least `1` and at least the clamped
start. -/
theorem startEff_ge (startIdx : ℤ) :
    1 ≤ startEff startIdx ∧ clampStart startIdx ≤ startEff startIdx := by
  unfold startEff; split <;> omega

/-- On a non-degenerate clamped range the effective start is at most the
clamped end. -/
theorem startEff_le_clampEnd (N startIdx endIdx : ℤ)
    (h : clampStart startIdx < clampEnd N endIdx) :
    startEff startIdx ≤ clampEnd N endIdx := by
  have h0 := clampStart_nonneg startIdx
  unfold startEff
  split <;> omega

/-- Every loop index lies between the effective start and the clamped end. -/
theorem mem_loopIdxs (N : ℕ) (startIdx endIdx : ℤ) (i : ℕ)
    (hr : clampStart startIdx < clampEnd (N : ℤ) endIdx)
    (h : i ∈ loopIdxs N startIdx endIdx) :
    (startEff startIdx).toNat ≤ i ∧ i ≤ (clampEnd (N : ℤ) endIdx).toNat := by
  have h1 := startEff_le_clampEnd (N : ℤ) startIdx endIdx hr
  have h2 := (startEff_ge startIdx).1
  unfold loopIdxs at h
  rw [List.mem_range'_1] at h
  omega

/-- C5: for every input, if the price series is empty, or if after clamping
`startIdx ≥ endIdx` holds, the simulator returns exactly the initial state:
`finalCapital = INITIAL` (10000) and `tradeCount = 0`, with no trading
performed. -/
theorem simulate_degenerate_range (prices : List ℚ) (smaS smaL : List (Option ℚ))
    (startIdx endIdx : ℤ)
    (h : prices = [] ∨
      clampEnd (prices.length : ℤ) endIdx ≤ clampStart startIdx) :
    simulateWithCapitalRange prices smaS smaL startIdx endIdx =
      some ⟨INITIAL, 0⟩ := by
  unfold simulateWithCapitalRange
  rcases h with h | h
  · rw [if_pos (by simp [h])]
  · by_cases hN : prices.length = 0
    · rw [if_pos hN]
    · rw [if_neg hN, if_pos h]

/-- Witness for C5 at `prices = [3, 4, 5]`, `startIdx = 2`, `endIdx = 7`
(clamped to `2`, so the clamped range is empty). -/
theorem simulate_degenerate_range_witness :
    simulateWithCapitalRange [3, 4, 5] [] [] 2 7 = some ⟨INITIAL, 0⟩ :=
  simulate_degenerate_range [3, 4, 5] [] [] 2 7
    (Or.inr (by norm_num [clampStart, clampEnd]))

/-- C4: the simulator never executes a BUY at the index equal to its clamped
start: even when the position is flat (`shares = 0`) and a golden cross
(`diffPrev < 0` and `diffNow > 0`) holds at `i = startIdx`, the loop body at
that index leaves the state `(cash, shares, trades)` unchanged. -/
theorem simStep_no_buy_on_first_day (prices : List ℚ)
    (smaS smaL : List (Option ℚ)) (s : ℕ) (st : SimState)
    (hflat : st.shares = 0) (a b a2 b2 : ℚ)
    (h1 : smaS.get? (s - 1) = some (some a))
    (h2 : smaL.get? (s - 1) = some (some b))
    (h3 : smaS.get? s = some (some a2))
    (h4 : smaL.get? s = some (some b2))
    (hg1 : a - b < 0) (hg2 : 0 < a2 - b2) :
    simStep prices smaS smaL s s st = some st := by
  unfold simStep
  rw [h1, h2, h3, h4]
  simp [hflat]

/-- Witness for C4: a golden cross at the first evaluated index with a flat
position triggers no state change. -/
theorem simStep_no_buy_on_first_day_witness :
    simStep [(1 : ℚ), 1] [some (-1), some 1] [some 0, some 0] 1 1 initState =
      some initState :=
  simStep_no_buy_on_first_day [(1 : ℚ), 1] [some (-1), some 1]
    [some 0, some 0] 1 initState rfl (-1) 0 1 0 rfl rfl rfl rfl
    (by norm_num) (by norm_num)

/-- The clamped end index is a valid position in the price series whenever the
clamped range is non-degenerate. -/
theorem clampEnd_toNat_lt (prices : List ℚ) (startIdx endIdx : ℤ)
    (hN : prices.length ≠ 0)
    (hr : clampStart startIdx < clampEnd (prices.length : ℤ) endIdx) :
    (clampEnd (prices.length : ℤ) endIdx).toNat < prices.length := by
  have h1 := clampStart_nonneg startIdx
  have h2 := clampEnd_le (prices.length : ℤ) endIdx (by omega)
  omega

/-- C3: whenever the loop of the simulator ends holding shares
(`shares > 0`), a forced liquidation happens: the returned `finalCapital` is
the cash held plus `shares` times the price at the clamped end index, and the
returned `tradeCount` counts that final sale as one extra trade — regardless
of whether a death cross occurred on the last day. -/
theorem simulate_forced_liquidation (prices : List ℚ)
    (smaS smaL : List (Option ℚ)) (startIdx endIdx : ℤ) (st : SimState)
    (hN : prices.length ≠ 0)
    (hr : clampStart startIdx < clampEnd (prices.length : ℤ) endIdx)
    (hloop : simLoop prices smaS smaL (startEff startIdx).toNat
      (loopIdxs prices.length startIdx endIdx) initState = some st)
    (hsh : 0 < st.shares) :
    simulateWithCapitalRange prices smaS smaL startIdx endIdx =
      some ⟨st.cash + (st.shares : ℚ) *
          prices.getD (clampEnd (prices.length : ℤ) endIdx).toNat 0,
        st.trades + 1⟩ := by
  have he := clampEnd_toNat_lt prices startIdx endIdx hN hr
  unfold simulateWithCapitalRange
  rw [if_neg hN, if_neg (not_le.mpr hr), hloop]
  show liquidate prices (clampEnd ((prices.length : ℤ)) endIdx).toNat st = _
  unfold liquidate
  rw [if_pos hsh, List.get?_eq_get he]
  simp [List.getD_eq_getElem?_getD, List.getElem?_eq_getElem he, List.get_eq_getElem]

/-- Witness for C3: a golden cross with no later death cross leaves an open
position, which is liquidated at the last price of the range. -/
theorem simulate_forced_liquidation_witness :
    simulateWithCapitalRange [1, 1, 1, 1]
      [some (-1), some (-1), some 1, some 1]
      [some 0, some 0, some 0, some 0] 0 3 = some ⟨10000, 2⟩ := by
  have hloop : simLoop [1, 1, 1, 1]
      [some (-1), some (-1), some 1, some 1]
      [some 0, some 0, some 0, some 0] (startEff 0).toNat
      (loopIdxs 4 0 3) initState = some ⟨0, 10000, 1⟩ := by
    norm_num [simLoop, simStep, loopIdxs, startEff, clampStart, clampEnd,
      initState, INITIAL, ratTruncToInt, List.range',
      show Int.sign 10000 = 1 from rfl]
  have h := simulate_forced_liquidation [1, 1, 1, 1]
    [some (-1), some (-1), some 1, some 1]
    [some 0, some 0, some 0, some 0] 0 3 ⟨0, 10000, 1⟩ (by norm_num)
    (by norm_num [clampStart, clampEnd]) hloop (by norm_num)
  rw [h]
  norm_num [clampEnd, show Int.toNat 3 = 3 from rfl]

/-- With all four SMA accesses in bounds, one loop iteration cannot fail. -/
theorem simStep_isSome (prices : List ℚ) (smaS smaL : List (Option ℚ))
    (startIdx i : ℕ) (st : SimState) (osp olp osn oln : Option ℚ)
    (h1 : smaS.get? (i - 1) = some osp) (h2 : smaL.get? (i - 1) = some olp)
    (h3 : smaS.get? i = some osn) (h4 : smaL.get? i = some oln)
    (hp : i < prices.length) :
    (simStep prices smaS smaL startIdx i st).isSome := by
  unfold simStep
  rw [h1, h2, h3, h4, List.get?_eq_get hp]
  rcases osp with _ | sp <;> rcases olp with _ | lp <;>
    rcases osn with _ | sn <;> rcases oln with _ | lnow <;>
    dsimp only <;> (try rfl) <;> split_ifs <;> rfl

/-- The loop cannot fail when every index it visits is in bounds for the
price series and both SMA series. -/
theorem simLoop_isSome (prices : List ℚ) (smaS smaL : List (Option ℚ))
    (startIdx : ℕ) (idxs : List ℕ) (st : SimState)
    (hb : ∀ i ∈ idxs, i < prices.length ∧ i < smaS.length ∧ i < smaL.length) :
    (simLoop prices smaS smaL startIdx idxs st).isSome := by
  induction idxs generalizing st with
  | nil => rfl
  | cons i rest ih =>
    obtain ⟨hp, hs, hl⟩ := hb i (by simp)
    have hs1 : i - 1 < smaS.length := by omega
    have hl1 : i - 1 < smaL.length := by omega
    have hstep := simStep_isSome prices smaS smaL startIdx i st _ _ _ _
      (List.get?_eq_get hs1) (List.get?_eq_get hl1) (List.get?_eq_get hs)
      (List.get?_eq_get hl) hp
    obtain ⟨st', hst'⟩ := Option.isSome_iff_exists.mp hstep
    unfold simLoop
    rw [hst']
    exact ih st' (fun j hj => hb j (by simp [hj]))

/-- The simulator cannot fail when both SMA series are at least as long as
the price series: every access is kept in bounds by the clamps. -/
theorem simulate_isSome_of_aligned (prices : List ℚ)
    (smaS smaL : List (Option ℚ)) (startIdx endIdx : ℤ)
    (hS : prices.length ≤ smaS.length) (hL : prices.length ≤ smaL.length) :
    (simulateWithCapitalRange prices smaS smaL startIdx endIdx).isSome := by
  unfold simulateWithCapitalRange
  by_cases hN : prices.length = 0
  · rw [if_pos hN]; rfl
  · rw [if_neg hN]
    by_cases hr : clampEnd (prices.length : ℤ) endIdx ≤ clampStart startIdx
    · rw [if_pos hr]; rfl
    · rw [if_neg hr]
      push_neg at hr
      have he := clampEnd_toNat_lt prices startIdx endIdx hN hr
      have hloop := simLoop_isSome prices smaS smaL (startEff startIdx).toNat
        (loopIdxs prices.length startIdx endIdx) initState (fun i hi => by
          have hm := mem_loopIdxs prices.length startIdx endIdx i hr hi
          refine ⟨by omega, by omega, by omega⟩)
      obtain ⟨st, hst⟩ := Option.isSome_iff_exists.mp hloop
      rw [hst]
      show (liquidate prices (clampEnd ((prices.length : ℤ)) endIdx).toNat st).isSome
      unfold liquidate
      split_ifs
      · rw [List.get?_eq_get he]; rfl
      · rfl

/-- Counterexample to C9 as stated: the simulator is quantified there over
*every* pair of SMA series, but with SMA series shorter than the price series
the loop body performs an out-of-bounds access (`smaS[0]` on an empty vector,
undefined behaviour in C++, `none` in this embedding). -/
theorem simulate_oob_counterexample :
    simulateWithCapitalRange [1, 1] [] [] 0 5 = none := by
  norm_num [simulateWithCapitalRange, simLoop, simStep, loopIdxs, startEff,
    clampStart, clampEnd, initState, List.range']

/-- C9 (amended): for every price series, every pair of SMA series at least
as long as the price series — as the series produced by `calcSMA` always are
— and all integer `startIdx`, `endIdx`, the clamping keeps every array access
in bounds (the out-of-bounds `none` branch is unreachable) and the simulator
returns an outcome. -/
theorem simulate_total_of_aligned (prices : List ℚ)
    (smaS smaL : List (Option ℚ)) (startIdx endIdx : ℤ)
    (hS : prices.length ≤ smaS.length) (hL : prices.length ≤ smaL.length) :
    ∃ r : SimResult,
      simulateWithCapitalRange prices smaS smaL startIdx endIdx = some r :=
  Option.isSome_iff_exists.mp
    (simulate_isSome_of_aligned prices smaS smaL startIdx endIdx hS hL)

/-- Witness for the amended C9 at a concrete input (SMA series still in
warm-up everywhere). -/
theorem simulate_total_of_aligned_witness :
    ∃ r : SimResult,
      simulateWithCapitalRange [1, 1] [none, none] [none, none] 0 5 = some r :=
  simulate_total_of_aligned [1, 1] [none, none] [none, none] 0 5
    (by decide) (by decide)

/-- Shape of one loop iteration: the state is unchanged, or a BUY happened
(position was flat, a positive number of shares was added, one more trade),
or a SELL happened (position was held, shares reset to `0`, one more
trade). -/
theorem simStep_cases (prices : List ℚ) (smaS smaL : List (Option ℚ))
    (startIdx i : ℕ) (st st' : SimState)
    (h : simStep prices smaS smaL startIdx i st = some st') :
    st' = st ∨
    (st.shares = 0 ∧ ∃ b : ℤ, 0 < b ∧ ∃ c : ℚ,
      st' = ⟨c, st.shares + b, st.trades + 1⟩) ∨
    (0 < st.shares ∧ ∃ c : ℚ, st' = ⟨c, 0, st.trades + 1⟩) := by
  unfold simStep at h
  split at h
  · split at h
    · dsimp only at h
      split_ifs at h with hbuy hsell
      · split at h
        · split_ifs at h with hpos
          · injection h with h
            exact Or.inr (Or.inl ⟨hbuy.2.1, _, hpos, _, h.symm⟩)
          · injection h with h
            exact Or.inl h.symm
        · exact absurd h (by simp)
      · split at h
        · injection h with h
          exact Or.inr (Or.inr ⟨hsell.1, _, h.symm⟩)
        · exact absurd h (by simp)
      · injection h with h
        exact Or.inl h.symm
    · injection h with h
      exact Or.inl h.symm
  · exact absurd h (by simp)

/-- The alternation invariant of the simulated position: flat with an even
number of counted trades, or holding with an odd number. -/
def SimInv (st : SimState) : Prop :=
  (st.shares = 0 ∧ Even st.trades) ∨ (0 < st.shares ∧ Odd st.trades)

/-- One loop iteration preserves the alternation invariant. -/
theorem simStep_inv (prices : List ℚ) (smaS smaL : List (Option ℚ))
    (startIdx i : ℕ) (st st' : SimState)
    (h : simStep prices smaS smaL startIdx i st = some st')
    (hinv : SimInv st) : SimInv st' := by
  rcases simStep_cases prices smaS smaL startIdx i st st' h with
    h' | ⟨hflat, b, hb, c, h'⟩ | ⟨hpos, c, h'⟩
  · rwa [h']
  · rcases hinv with ⟨_, heven⟩ | ⟨hpos, _⟩
    · exact Or.inr ⟨by subst h'; simpa [hflat] using hb,
        by subst h'; exact Even.add_one heven⟩
    · omega
  · rcases hinv with ⟨hflat, _⟩ | ⟨_, hodd⟩
    · omega
    · exact Or.inl ⟨by subst h'; rfl, by subst h'; exact Odd.add_one hodd⟩

/-- The whole loop preserves the alternation invariant. -/
theorem simLoop_inv (prices : List ℚ) (smaS smaL : List (Option ℚ))
    (startIdx : ℕ) (idxs : List ℕ) (st st' : SimState)
    (h : simLoop prices smaS smaL startIdx idxs st = some st')
    (hinv : SimInv st) : SimInv st' := by
  induction idxs generalizing st with
  | nil =>
    unfold simLoop at h
    injection h with h
    rwa [← h]
  | cons i rest ih =>
    unfold simLoop at h
    split at h
    · exact ih _ h (simStep_inv prices smaS smaL startIdx i st _ (by assumption) hinv)
    · exact absurd h (by simp)

/-- C10: the trade count returned by the simulator is always even: the
position alternates between flat and holding, every counted buy is matched by
exactly one counted sell (a death-cross sale or the final forced
liquidation), and the simulation ends flat. -/
theorem simulate_tradeCount_even (prices : List ℚ)
    (smaS smaL : List (Option ℚ)) (startIdx endIdx : ℤ) (r : SimResult)
    (h : simulateWithCapitalRange prices smaS smaL startIdx endIdx = some r) :
    Even r.tradeCount := by
  unfold simulateWithCapitalRange at h
  split_ifs at h
  · injection h with h
    rw [← h]
    simp
  · injection h with h
    rw [← h]
    simp
  · split at h
    · have hinv := simLoop_inv prices smaS smaL _ _ initState _ (by assumption)
        (Or.inl ⟨rfl, by simp [initState]⟩)
      unfold liquidate at h
      split_ifs at h with hsh
      · split at h
        · injection h with h
          rcases hinv with ⟨hflat, _⟩ | ⟨_, hodd⟩
          · omega
          · rw [← h]
            exact Odd.add_one hodd
        · exact absurd h (by simp)
      · injection h with h
        rcases hinv with ⟨_, heven⟩ | ⟨hpos, _⟩
        · rw [← h]
          exact heven
        · omega
    · exact absurd h (by simp)

/-- Witness for C10: a run with one buy and the forced liquidation returns an
even trade count. -/
theorem simulate_tradeCount_even_witness :
    Even (2 : ℕ) := by
  have h : simulateWithCapitalRange [1, 1, 1, 1]
      [some (-1), some (-1), some 1, some 1]
      [some 0, some 0, some 0, some 0] 0 3 = some ⟨10000, 2⟩ := by
    norm_num [simulateWithCapitalRange, simLoop, simStep, liquidate, loopIdxs,
      startEff, clampStart, clampEnd, initState, INITIAL, ratTruncToInt,
      List.range', show Int.sign 10000 = 1 from rfl,
      show Int.toNat 3 = 3 from rfl]
  have := simulate_tradeCount_even [1, 1, 1, 1]
    [some (-1), some (-1), some 1, some 1]
    [some 0, some 0, some 0, some 0] 0 3 ⟨10000, 2⟩ h
  simpa using this

/-- Every entry of the SMA of a constant series is undefined or the constant
itself. -/
theorem calcSMA_replicate_mem (c : ℚ) (k : ℕ) (n : ℤ) :
    ∀ x ∈ calcSMA (List.replicate k c) n, x = none ∨ x = some c := by
  intro x hx
  unfold calcSMA at hx
  split at hx
  · exact Or.inl (List.eq_of_mem_replicate hx)
  · rename_i hvalid
    rw [List.length_replicate] at hvalid
    obtain ⟨i, hi, hfi⟩ := List.mem_map.mp hx
    rw [List.mem_range, List.length_replicate] at hi
    by_cases hw : i + 1 < n.toNat
    · rw [if_pos hw] at hfi
      exact Or.inl hfi.symm
    · rw [if_neg hw] at hfi
      refine Or.inr ?_
      rw [← hfi]
      have hm : 1 ≤ n.toNat := by omega
      have hb : (i + 1 - n.toNat) + n.toNat ≤ (List.replicate k c).length := by
        rw [List.length_replicate]
        omega
      have hmin : min n.toNat (k - (i + 1 - n.toNat)) = n.toNat := by omega
      have hsum : smaSumAux (List.replicate k c) n.toNat (i + 1 - n.toNat) =
          (n.toNat : ℚ) * c := by
        rw [smaSumAux_eq _ _ _ hb, List.drop_replicate, List.take_replicate, hmin]
        simp [List.sum_replicate, nsmul_eq_mul]
      rw [hsum, mul_div_cancel_left₀]
      exact Nat.cast_ne_zero.mpr (by omega)

/-- When every SMA entry is undefined or a single constant, a loop iteration
never changes the state: no golden or death cross can occur. -/
theorem simStep_const (prices : List ℚ) (smaS smaL : List (Option ℚ)) (c : ℚ)
    (hS : ∀ x ∈ smaS, x = none ∨ x = some c)
    (hL : ∀ x ∈ smaL, x = none ∨ x = some c)
    (startIdx i : ℕ) (st : SimState)
    (hs : i < smaS.length) (hl : i < smaL.length) :
    simStep prices smaS smaL startIdx i st = some st := by
  have hs1 : i - 1 < smaS.length := by omega
  have hl1 : i - 1 < smaL.length := by omega
  unfold simStep
  rw [List.get?_eq_get hs1, List.get?_eq_get hl1, List.get?_eq_get hs,
    List.get?_eq_get hl]
  rcases hS _ (List.get_mem smaS (i - 1) hs1) with h1 | h1 <;>
    rcases hL _ (List.get_mem smaL (i - 1) hl1) with h2 | h2 <;>
    rcases hS _ (List.get_mem smaS i hs) with h3 | h3 <;>
    rcases hL _ (List.get_mem smaL i hl) with h4 | h4 <;>
    rw [h1, h2, h3, h4] <;> dsimp only <;> simp [sub_self]

/-- The whole loop keeps the initial state on such SMA series. -/
theorem simLoop_const (prices : List ℚ) (smaS smaL : List (Option ℚ)) (c : ℚ)
    (hS : ∀ x ∈ smaS, x = none ∨ x = some c)
    (hL : ∀ x ∈ smaL, x = none ∨ x = some c)
    (startIdx : ℕ) (idxs : List ℕ) (st : SimState)
    (hb : ∀ i ∈ idxs, i < smaS.length ∧ i < smaL.length) :
    simLoop prices smaS smaL startIdx idxs st = some st := by
  induction idxs with
  | nil => rfl
  | cons i rest ih =>
    obtain ⟨hs, hl⟩ := hb i (by simp)
    unfold simLoop
    rw [simStep_const prices smaS smaL c hS hL startIdx i st hs hl]
    exact ih (fun j hj => hb j (by simp [hj]))

/-- C8: on a constant (flat) price series, for every pair of periods and any
index range, no crossover ever triggers: the simulator performs no trade and
returns exactly `tradeCount = 0` and `finalCapital = INITIAL`. -/
theorem simulate_flat_series (c : ℚ) (k : ℕ) (s l startIdx endIdx : ℤ) :
    simulateWithCapitalRange (List.replicate k c)
      (calcSMA (List.replicate k c) s) (calcSMA (List.replicate k c) l)
      startIdx endIdx = some ⟨INITIAL, 0⟩ := by
  unfold simulateWithCapitalRange
  by_cases hN : (List.replicate k c).length = 0
  · rw [if_pos hN]
  · rw [if_neg hN]
    by_cases hr : clampEnd (((List.replicate k c).length : ℤ)) endIdx ≤
      clampStart startIdx
    · rw [if_pos hr]
    · rw [if_neg hr]
      push_neg at hr
      have he := clampEnd_toNat_lt (List.replicate k c) startIdx endIdx hN hr
      have hlenS : (calcSMA (List.replicate k c) s).length =
          (List.replicate k c).length := calcSMA_length _ _
      have hlenL : (calcSMA (List.replicate k c) l).length =
          (List.replicate k c).length := calcSMA_length _ _
      rw [simLoop_const _ _ _ c (calcSMA_replicate_mem c k s)
        (calcSMA_replicate_mem c k l) _ _ _ (fun i hi => by
          have hm := mem_loopIdxs _ startIdx endIdx i hr hi
          constructor <;> omega)]
      show liquidate _ _ initState = _
      unfold liquidate
      rw [if_neg (by simp [initState])]
      rfl

/-- `struct BruteResult { int s; int l; double finalCapital; int trades; }`. -/
structure BruteResult where
  s : ℤ
  l : ℤ
  finalCapital : ℚ
  trades : ℕ
deriving DecidableEq, Repr

/-- The sort comparator lambda of `bruteForceAndAppend`: higher
`finalCapital` first; on equal capital larger `|s - l|` first; then smaller
`s`; then smaller `l`. -/
def bruteLess (a b : BruteResult) : Bool :=
  if a.finalCapital ≠ b.finalCapital then
    decide (b.finalCapital < a.finalCapital)
  else if |a.s - a.l| ≠ |b.s - b.l| then decide (|b.s - b.l| < |a.s - a.l|)
  else if a.s ≠ b.s then decide (a.s < b.s)
  else decide (a.l < b.l)

/-- The comparator as a four-level lexicographic order. -/
theorem bruteLess_iff (a b : BruteResult) : bruteLess a b = true ↔
    (b.finalCapital < a.finalCapital ∨
      (a.finalCapital = b.finalCapital ∧ (|b.s - b.l| < |a.s - a.l| ∨
        (|a.s - a.l| = |b.s - b.l| ∧ (a.s < b.s ∨
          (a.s = b.s ∧ a.l < b.l)))))) := by
  unfold bruteLess
  split_ifs with h1 h2 h3 <;> simp_all

/-- The comparator is asymmetric. -/
theorem bruteLess_asymm (a b : BruteResult) (h : bruteLess a b = true) :
    bruteLess b a = false := by
  by_contra hc
  rw [Bool.not_eq_false, bruteLess_iff] at hc
  rw [bruteLess_iff] at h
  rcases h with h1 | ⟨e1, h2 | ⟨e2, h3 | ⟨e3, h4⟩⟩⟩ <;>
    rcases hc with g1 | ⟨f1, g2 | ⟨f2, g3 | ⟨f3, g4⟩⟩⟩ <;> linarith

/-- The comparator is transitive. -/
theorem bruteLess_trans (a b c : BruteResult) (hab : bruteLess a b = true)
    (hbc : bruteLess b c = true) : bruteLess a c = true := by
  rw [bruteLess_iff] at hab hbc ⊢
  rcases hab with h1 | ⟨e1, hab2⟩
  · rcases hbc with h2 | ⟨e2, _⟩
    · exact Or.inl (lt_trans h2 h1)
    · exact Or.inl (by linarith)
  · rcases hbc with h2 | ⟨e2, hbc2⟩
    · exact Or.inl (by linarith)
    · refine Or.inr ⟨e1.trans e2, ?_⟩
      rcases hab2 with d1 | ⟨f1, hab3⟩
      · rcases hbc2 with d2 | ⟨f2, _⟩
        · exact Or.inl (lt_trans d2 d1)
        · exact Or.inl (by linarith)
      · rcases hbc2 with d2 | ⟨f2, hbc3⟩
        · exact Or.inl (by linarith)
        · refine Or.inr ⟨f1.trans f2, ?_⟩
          rcases hab3 with s1 | ⟨g1, l1⟩
          · rcases hbc3 with s2 | ⟨g2, _⟩
            · exact Or.inl (lt_trans s1 s2)
            · exact Or.inl (by linarith)
          · rcases hbc3 with s2 | ⟨g2, l2⟩
            · exact Or.inl (by linarith)
            · exact Or.inr ⟨g1.trans g2, lt_trans l1 l2⟩

/-- On distinct `(s, l)` keys the comparator always orders one way. -/
theorem bruteLess_connex (a b : BruteResult) (h : a.s ≠ b.s ∨ a.l ≠ b.l) :
    bruteLess a b = true ∨ bruteLess b a = true := by
  rw [bruteLess_iff, bruteLess_iff]
  rcases lt_trichotomy a.finalCapital b.finalCapital with hfc | hfc | hfc
  · exact Or.inr (Or.inl hfc)
  · rcases lt_trichotomy |a.s - a.l| |b.s - b.l| with hd | hd | hd
    · exact Or.inr (Or.inr ⟨hfc.symm, Or.inl hd⟩)
    · rcases lt_trichotomy a.s b.s with hs | hs | hs
      · exact Or.inl (Or.inr ⟨hfc, Or.inr ⟨hd, Or.inl hs⟩⟩)
      · rcases lt_trichotomy a.l b.l with hl | hl | hl
        · exact Or.inl (Or.inr ⟨hfc, Or.inr ⟨hd, Or.inr ⟨hs, hl⟩⟩⟩)
        · rcases h with h | h
          · exact absurd hs h
          · exact absurd hl h
        · exact Or.inr (Or.inr ⟨hfc.symm, Or.inr ⟨hd.symm, Or.inr ⟨hs.symm, hl⟩⟩⟩)
      · exact Or.inr (Or.inr ⟨hfc.symm, Or.inr ⟨hd.symm, Or.inl hs⟩⟩)
    · exact Or.inl (Or.inr ⟨hfc, Or.inl hd⟩)
  · exact Or.inl (Or.inl hfc)

/-- C2: the Ranker's comparator orders GridResults by exactly four keys in
priority — higher `finalCapital` first; on exact capital equality larger
`|s - l|` first; then smaller `s`; then smaller `l` — and it is a strict
total order on results with distinct `(s, l)` keys: it is asymmetric and
transitive (so sorting the same multiset twice yields identical output) and
no two entries with distinct keys compare equal. -/
theorem bruteLess_strict_total_order :
    (∀ a b : BruteResult, b.finalCapital < a.finalCapital →
      bruteLess a b = true) ∧
    (∀ a b : BruteResult, a.finalCapital = b.finalCapital →
      |b.s - b.l| < |a.s - a.l| → bruteLess a b = true) ∧
    (∀ a b : BruteResult, a.finalCapital = b.finalCapital →
      |a.s - a.l| = |b.s - b.l| → a.s < b.s → bruteLess a b = true) ∧
    (∀ a b : BruteResult, a.finalCapital = b.finalCapital →
      |a.s - a.l| = |b.s - b.l| → a.s = b.s → a.l < b.l →
      bruteLess a b = true) ∧
    (∀ a b : BruteResult, bruteLess a b = true → bruteLess b a = false) ∧
    (∀ a b c : BruteResult, bruteLess a b = true → bruteLess b c = true →
      bruteLess a c = true) ∧
    (∀ a b : BruteResult, a.s ≠ b.s ∨ a.l ≠ b.l →
      bruteLess a b = true ∨ bruteLess b a = true) := by
  refine ⟨?_, ?_, ?_, ?_, bruteLess_asymm, bruteLess_trans, bruteLess_connex⟩
  · intro a b h
    rw [bruteLess_iff]
    exact Or.inl h
  · intro a b h1 h2
    rw [bruteLess_iff]
    exact Or.inr ⟨h1, Or.inl h2⟩
  · intro a b h1 h2 h3
    rw [bruteLess_iff]
    exact Or.inr ⟨h1, Or.inr ⟨h2, Or.inl h3⟩⟩
  · intro a b h1 h2 h3 h4
    rw [bruteLess_iff]
    exact Or.inr ⟨h1, Or.inr ⟨h2, Or.inr ⟨h3, h4⟩⟩⟩

/-- Witness for C2: on equal capital the wider-spread pair ranks first, and
two distinct degenerate pairs are always comparable one way or the other. -/
theorem bruteLess_strict_total_order_witness :
    bruteLess ⟨1, 5, 100, 0⟩ ⟨2, 3, 100, 0⟩ = true ∧
    (bruteLess ⟨1, 1, 100, 0⟩ ⟨2, 2, 100, 0⟩ = true ∨
      bruteLess ⟨2, 2, 100, 0⟩ ⟨1, 1, 100, 0⟩ = true) :=
  ⟨bruteLess_strict_total_order.2.1 ⟨1, 5, 100, 0⟩ ⟨2, 3, 100, 0⟩ rfl
      (by decide),
    bruteLess_strict_total_order.2.2.2.2.2.2 ⟨1, 1, 100, 0⟩ ⟨2, 2, 100, 0⟩
      (Or.inl (by decide))⟩

/-- `const int MAXN = 256`, the bound of both period sweeps. -/
def MAXN : ℕ := 256

/-- One cell of the grid sweep of `bruteForceAndAppend`: periods `s = si + 1`
and `l = li + 1`, simulated with the cached series `allSMA[s]` and
`allSMA[l]`, recorded as `{ s, l, sr.finalCapital, sr.tradeCount }`. -/
def gridCell (prices : List ℚ) (startIdx endIdx : ℤ) (si li : ℕ) :
    Option BruteResult :=
  (simulateWithCapitalRange prices (calcSMA prices ((si : ℤ) + 1))
      (calcSMA prices ((li : ℤ) + 1)) startIdx endIdx).map
    fun r => ⟨(si : ℤ) + 1, (li : ℤ) + 1, r.finalCapital, r.tradeCount⟩

/-- The double loop `for (s = 1..MAXN) for (l = 1..MAXN)` of
`bruteForceAndAppend`, collecting one `BruteResult` per ordered pair; a
failed simulation (impossible for the aligned series of `calcSMA`, as proven
below) would be dropped. -/
def gridResults (prices : List ℚ) (startIdx endIdx : ℤ) : List BruteResult :=
  (List.range MAXN).flatMap fun si =>
    (List.range MAXN).filterMap fun li => gridCell prices startIdx endIdx si li

/-- Every grid cell holds a result, keyed by its own period pair. -/
theorem gridCell_eq (prices : List ℚ) (startIdx endIdx : ℤ) (si li : ℕ) :
    ∃ r : SimResult, gridCell prices startIdx endIdx si li =
      some ⟨(si : ℤ) + 1, (li : ℤ) + 1, r.finalCapital, r.tradeCount⟩ := by
  obtain ⟨r, hr⟩ := Option.isSome_iff_exists.mp
    (simulate_isSome_of_aligned prices (calcSMA prices ((si : ℤ) + 1))
      (calcSMA prices ((li : ℤ) + 1)) startIdx endIdx
      (le_of_eq (calcSMA_length prices _).symm)
      (le_of_eq (calcSMA_length prices _).symm))
  exact ⟨r, by rw [gridCell, hr]; rfl⟩

/-- The period keys of one row of the grid, in order. -/
theorem gridRow_keys (prices : List ℚ) (startIdx endIdx : ℤ) (si : ℕ)
    (L : List ℕ) :
    ((L.filterMap fun li => gridCell prices startIdx endIdx si li).map
      fun r => (r.s, r.l)) =
      L.map (fun li : ℕ => ((si : ℤ) + 1, ((li : ℤ) + 1))) := by
  induction L with
  | nil => rfl
  | cons li rest ih =>
    obtain ⟨r, hr⟩ := gridCell_eq prices startIdx endIdx si li
    rw [List.filterMap_cons, hr]
    simp only [List.map_cons, ih]

set_option maxRecDepth 8192 in
/-- C7: for every input price series and range, the grid search sweeps
`s` and `l` each independently over `1..MAXN` with `MAXN = 256` and collects
exactly `MAXN × MAXN = 65536` results, one per ordered pair `(s, l)` — the
key sequence is exactly the enumeration of all ordered pairs, including
every degenerate pair with `s = l`. -/
theorem gridResults_full_sweep (prices : List ℚ) (startIdx endIdx : ℤ) :
    MAXN = 256 ∧
    (gridResults prices startIdx endIdx).length = 65536 ∧
    ((gridResults prices startIdx endIdx).map fun r => (r.s, r.l)) =
      ((List.range MAXN).flatMap fun si =>
        (List.range MAXN).map (fun li : ℕ => ((si : ℤ) + 1, ((li : ℤ) + 1)))) := by
  have hkeys : ((gridResults prices startIdx endIdx).map fun r => (r.s, r.l)) =
      ((List.range MAXN).flatMap fun si =>
        (List.range MAXN).map (fun li : ℕ => ((si : ℤ) + 1, ((li : ℤ) + 1)))) := by
    unfold gridResults
    rw [List.map_flatMap]
    congr 1
    funext si
    exact gridRow_keys prices startIdx endIdx si (List.range MAXN)
  refine ⟨rfl, ?_, hkeys⟩
  have hlen : (gridResults prices startIdx endIdx).length =
      ((gridResults prices startIdx endIdx).map fun r => (r.s, r.l)).length :=
    (List.length_map _ _).symm
  rw [hlen, hkeys]
  simp only [List.length_flatMap, Function.comp, List.length_map,
    List.length_range, MAXN]
  decide
